import Mathlib

/-!
Shallow embedding of the versioned-rdflib temporal triple-store engine
(`src/vrdf.py`, with the earlier prototypes `src/main.py` and
`src/main_with_sqlalchemy.py` modelled where a claim cites them).

Modelling conventions, each justified against the source:

* RDF terms are opaque values compared structurally; we embed them as
  `String` and a triple as a 3-tuple of terms, matching rdflib value
  equality of pickled/round-tripped terms.
* The live `ConjunctiveGraph` content (the GraphStore) is a finite set of
  (context name, triple) pairs.  `Graph.add`/`Graph.remove` on a context
  bound to name `g` insert/erase the pair `(g, t)`;
  `ConjunctiveGraph.add` adds into the default context and
  `ConjunctiveGraph.remove` removes the triple from every context, which
  is exactly rdflib's behaviour for those two calls.
* The `changesets` and `redos` SQL tables are lists of `LogEntry` in
  rowid (insertion) order.  `ORDER BY timestamp DESC` is modelled by a
  stable descending insertion sort (ties keep table order);
  `ORDER BY ... LIMIT 1` by a fold that keeps the first row among ties.
* The `conn()` context manager in `vrdf.py` yields a bare autocommitting
  SQLAlchemy engine connection — it opens no transaction and never
  commits or rolls back — and graph mutations go through the rdflib
  store's own connection.  Therefore every log insert and store mutation
  in `new_changeset` persists as soon as it executes, and a precommit
  hook that raises simply propagates: the model returns the mutated
  state together with the first hook error.
* Hooks receive the dataset handle; the claims only need them as
  observers that either return or raise, so a hook is a function from
  the database state to `Option String` (`some msg` = raised).
  Postcommit hooks and namespace binding do not change the modelled
  state and are omitted.
-/

/-- An RDF triple (subject, predicate, object); terms are opaque values
compared structurally. -/
abbrev Triple := String × String × String

/-- The live GraphStore content of the `ConjunctiveGraph`: a finite set of
(context name, triple) pairs. -/
abbrev Store := Finset (String × Triple)

/-- The identifier of the `ConjunctiveGraph` default context, distinct
from user graph names in all scenarios. -/
def defaultContext : String := "urn:x-rdflib-default"

/-- `Graph.add` on the context named `g` (also `BatchAddGraph.add`, whose
batching only amortizes I/O and has no effect on the final content). -/
def contextAdd (s : Store) (g : String) (t : Triple) : Store :=
  insert (g, t) s

/-- `Graph.remove` on the context named `g`. -/
def contextRemove (s : Store) (g : String) (t : Triple) : Store :=
  s.erase (g, t)

/-- `ConjunctiveGraph.add`: adds the triple to the default context. -/
def cgAdd (s : Store) (t : Triple) : Store :=
  insert (defaultContext, t) s

/-- `ConjunctiveGraph.remove`: removes the triple from every context. -/
def cgRemove (s : Store) (t : Triple) : Store :=
  s.filter (fun p => p.2 ≠ t)

/-- The triples of the context named `g` (what `latest(g)` iterates). -/
def graphTriples (s : Store) (g : String) : Finset Triple :=
  (s.filter (fun p => p.1 = g)).image Prod.snd

/-- The triples of the whole dataset (what `self.triples((None,None,None))`
iterates on the `ConjunctiveGraph`). -/
def allTriples (s : Store) : Finset Triple :=
  s.image Prod.snd

/-- One row of the `changesets` / `redos` tables:
`(id, timestamp, graph, is_insertion, triple)`. -/
structure LogEntry where
  id : String
  timestamp : Nat
  graph : String
  is_insertion : Bool
  triple : Triple
deriving DecidableEq

/-- The in-flight `Changeset` object: target graph name, uuid, and the
staged additions and deletions in staging order. -/
structure Changeset where
  name : String
  uid : String
  additions : List Triple
  deletions : List Triple

/-- The whole database state: live store plus the two log tables in
rowid order. -/
structure DBState where
  store : Store
  changesets : List LogEntry
  redos : List LogEntry
deriving DecidableEq

/-- A precommit hook: receives the dataset and either returns (`none`)
or raises (`some message`). -/
abbrev Hook := DBState → Option String

/-- Runs hooks in registration order; the first raising hook stops the
pipeline and its error propagates. -/
def firstHookError : List Hook → DBState → Option String
  | [], _ => none
  | h :: rest, db =>
    match h db with
    | some e => some e
    | none => firstHookError rest db

/-- A row logged for a staged *removal*: kind Insertion (`is_insertion`
true), the inverse of the user operation. -/
def insertionEntry (uid : String) (ts : Nat) (g : String) (t : Triple) : LogEntry :=
  ⟨uid, ts, g, true, t⟩

/-- A row logged for a staged *addition*: kind Deletion (`is_insertion`
false), the inverse of the user operation. -/
def deletionEntry (uid : String) (ts : Nat) (g : String) (t : Triple) : LogEntry :=
  ⟨uid, ts, g, false, t⟩

/-- The rows `new_changeset` appends to the `changesets` table for one
finalized changeset: first one Insertion row per staged deletion, then
one Deletion row per staged addition, all carrying the changeset's uuid
and effective timestamp. -/
def entriesOf (cs : Changeset) (ts : Nat) : List LogEntry :=
  cs.deletions.map (insertionEntry cs.uid ts cs.name)
  ++ cs.additions.map (deletionEntry cs.uid ts cs.name)

/-- The log writes and store mutations of `DB.new_changeset`'s finalize
path (vrdf.py lines 166-187): insert the inverse rows, remove every
staged deletion from the target context, then add every staged addition
to the target context (the `if cs.deletions:` / `if cs.additions:`
guards only skip empty SQL batches). -/
def finalizeWrites (db : DBState) (cs : Changeset) (ts : Nat) : DBState :=
  ⟨cs.additions.foldl (fun s t => contextAdd s cs.name t)
      (cs.deletions.foldl (fun s t => contextRemove s cs.name t) db.store),
   db.changesets ++ entriesOf cs ts,
   db.redos⟩

/-- `DB.new_changeset` exit: perform the writes, then run the precommit
hooks.  The connection autocommits and nothing in the source undoes the
writes, so the mutated state is returned together with the first hook
error (if any), which propagates to the caller. -/
def new_changeset_commit (precommit : List Hook) (db : DBState) (cs : Changeset)
    (ts : Nat) : DBState × Option String :=
  let db1 := finalizeWrites db cs ts
  (db1, firstHookError precommit db1)

/-- The committed state after `new_changeset` with no (or succeeding)
precommit hooks. -/
def commitState (db : DBState) (cs : Changeset) (ts : Nat) : DBState :=
  (new_changeset_commit [] db cs ts).1

/-- `DB.latest_version`: `SELECT id, timestamp FROM changesets ORDER BY
timestamp DESC LIMIT 1` — a row of maximal timestamp (first in table
order among ties). -/
def latest_version : List LogEntry → Option LogEntry
  | [] => none
  | e :: rest =>
    match latest_version rest with
    | none => some e
    | some m => if m.timestamp ≤ e.timestamp then some e else some m

/-- `redo`'s `SELECT * FROM redos ORDER BY timestamp ASC LIMIT 1` — a row
of minimal timestamp (first in table order among ties). -/
def first_redo : List LogEntry → Option LogEntry
  | [] => none
  | e :: rest =>
    match first_redo rest with
    | none => some e
    | some m => if e.timestamp ≤ m.timestamp then some e else some m

/-- Stable insertion step for the descending-by-timestamp sort: `e` goes
after every strictly more recent row and before rows of equal or older
timestamp. -/
def insertDescByTs (e : LogEntry) : List LogEntry → List LogEntry
  | [] => [e]
  | x :: xs => if e.timestamp < x.timestamp then x :: insertDescByTs e xs else e :: x :: xs

/-- `ORDER BY timestamp DESC` over a list of rows in table order: stable
descending insertion sort. -/
def sortDescByTs : List LogEntry → List LogEntry
  | [] => []
  | x :: xs => insertDescByTs x (sortDescByTs xs)

/-- One replay step of `_graph_at` when `alter_graph` is the live
`ConjunctiveGraph` (`self`): an Insertion row adds its triple to the
default context, a Deletion row removes it from every context. -/
def applyBackward (s : Store) (e : LogEntry) : Store :=
  if e.is_insertion then cgAdd s e.triple else cgRemove s e.triple

/-- `_graph_at`'s replay loop against the live `ConjunctiveGraph`. -/
def replayOnStore (entries : List LogEntry) (s : Store) : Store :=
  entries.foldl applyBackward s

/-- One replay step of `_graph_at` when `alter_graph` is a fresh private
`Graph` copy: plain set insert / erase. -/
def applyEntryToCopy (g : Finset Triple) (e : LogEntry) : Finset Triple :=
  if e.is_insertion then insert e.triple g else g.erase e.triple

/-- `_graph_at`'s replay loop against a private copy. -/
def replayOnCopy (entries : List LogEntry) (g : Finset Triple) : Finset Triple :=
  entries.foldl applyEntryToCopy g

/-- The row filter of `_graph_at`'s query: `WHERE [graph = ? AND]
timestamp >= ?` (note `>=`, not `>`). -/
def matchesWindow (graph : Option String) (timestamp : Nat) (e : LogEntry) : Bool :=
  (match graph with
   | some g => decide (e.graph = g)
   | none => true)
  && decide (timestamp ≤ e.timestamp)

/-- `DB._graph_at` (vrdf.py lines 224-248) applied to a private copy:
select the rows at or after the timestamp (for the given graph, when
given), walk them in descending timestamp order, and apply each row's
kind to the copy. -/
def graph_at_core (alter : Finset Triple) (log : List LogEntry) (timestamp : Nat)
    (graph : Option String) : Finset Triple :=
  replayOnCopy (sortDescByTs (log.filter (matchesWindow graph timestamp))) alter

/-- `DB.graph_at` (vrdf.py lines 208-222): build a fresh `Graph` holding a
copy of the current live content (one context, or the whole dataset),
then run `_graph_at` on that copy.  The source only reads the store and
the logs. -/
def graph_at (db : DBState) (timestamp : Nat) (graph : Option String) : Finset Triple :=
  graph_at_core
    (match graph with
     | some g => graphTriples db.store g
     | none => allTriples db.store)
    db.changesets timestamp graph

/-- A `graph_at` call observed together with the database state after the
call.  `DB.graph_at` allocates a fresh `Graph`, copies the live content
into it and replays log rows onto that copy only; no statement of it
writes to the store, the `changesets` table or the `redos` table, so the
post-call state is the input state. -/
def graph_at_call (db : DBState) (timestamp : Nat) (graph : Option String) :
    Finset Triple × DBState :=
  (graph_at db timestamp graph, db)

/-- The state transformation of `DB.undo` once the guard has passed and
`latest_version` returned row `le`: replay (onto the live
`ConjunctiveGraph`) every active row with `timestamp >= le.timestamp` in
descending order, then move every active row whose id equals
`le.id` to the redo table. -/
def undoApply (db : DBState) (le : LogEntry) : DBState :=
  ⟨replayOnStore
      (sortDescByTs (db.changesets.filter (fun e => decide (le.timestamp ≤ e.timestamp))))
      db.store,
   db.changesets.filter (fun e => !decide (e.id = le.id)),
   db.redos ++ db.changesets.filter (fun e => decide (e.id = le.id))⟩

/-- `DB.undo` (vrdf.py lines 94-106): raises before touching anything
when the `changesets` table is empty. -/
def undo (db : DBState) : DBState × Option String :=
  match latest_version db.changesets with
  | none => (db, some "No changesets to undo")
  | some le => (undoApply db le, none)

/-- One step of `redo`'s forward loop: reapply the kind opposite to the
stored one — an Insertion row is removed from every context, a Deletion
row is added to the default context (`self.remove` / `self.add` on the
`ConjunctiveGraph`). -/
def applyForward (s : Store) (e : LogEntry) : Store :=
  if e.is_insertion then cgRemove s e.triple else cgAdd s e.triple

/-- The state transformation of `DB.redo` once `first_redo` returned row
`le`: move every redo row with id `le.id` back into the `changesets`
table, replay (onto the live graph) every active row with
`timestamp >= le.timestamp`, then run the forward loop over the active
rows with id `le.id`, in table order. -/
def redoApply (db : DBState) (le : LogEntry) : DBState :=
  let changesets1 := db.changesets ++ db.redos.filter (fun e => decide (e.id = le.id))
  let redos1 := db.redos.filter (fun e => !decide (e.id = le.id))
  let store1 := replayOnStore
      (sortDescByTs (changesets1.filter (fun e => decide (le.timestamp ≤ e.timestamp))))
      db.store
  let store2 := (changesets1.filter (fun e => decide (e.id = le.id))).foldl applyForward store1
  ⟨store2, changesets1, redos1⟩

/-- `DB.redo` (vrdf.py lines 108-127): raises before touching anything
when the `redos` table is empty; otherwise selects the redo row with the
*smallest* timestamp (`ORDER BY timestamp ASC LIMIT 1`). -/
def redo (db : DBState) : DBState × Option String :=
  match first_redo db.redos with
  | none => (db, some "No changesets to redo")
  | some le => (redoApply db le, none)

/-- `DB.graph_at` of `src/main_with_sqlalchemy.py` (lines 116-127): here
`g = self.latest(graph)` is the *live* graph bound to context `graph`
(no copy is made), and the replay of rows with `timestamp > ?` (strict,
no ORDER BY, table order) adds and removes triples directly on that live
context.  Returns the resulting view of the context together with the
mutated database state. -/
def graph_at_ms (db : DBState) (graph : String) (timestamp : Nat) :
    Finset Triple × DBState :=
  let store2 :=
    (db.changesets.filter
        (fun e => decide (e.graph = graph) && decide (timestamp < e.timestamp))).foldl
      (fun s e => if e.is_insertion then contextAdd s graph e.triple
                  else contextRemove s graph e.triple)
      db.store
  (graphTriples store2 graph, ⟨store2, db.changesets, db.redos⟩)

/-!  Spec-modelled reference definitions (for refinement comparisons). -/

/-- Modelled from the claim as stated: `graph_at(t, g)` starts from a copy
of the current live content and replays exactly those active-log entries
whose timestamp is *strictly greater* than `t` (entries with timestamp
equal to `t` are not replayed), in descending timestamp order, adding
the triple of each Insertion entry and removing the triple of each
Deletion entry. -/
def graphAtStrictlyAfter (db : DBState) (timestamp : Nat) (graph : Option String) :
    Finset Triple :=
  (sortDescByTs (db.changesets.filter (fun e =>
      decide (timestamp < e.timestamp)
      && match graph with
         | some g => decide (e.graph = g)
         | none => true))).foldl
    (fun acc e => if e.is_insertion then insert e.triple acc else acc.erase e.triple)
    (match graph with
     | some g => graphTriples db.store g
     | none => allTriples db.store)

/-- Modelled from the amended claim: `graph_at(t, g)` starts from a copy of
the current live content and replays exactly those active-log entries
whose timestamp is *at or after* `t` (entries with timestamp equal to
`t` are replayed too), in descending timestamp order, adding the triple
of each Insertion entry and removing the triple of each Deletion
entry. -/
def graphAtAtOrAfter (db : DBState) (timestamp : Nat) (graph : Option String) :
    Finset Triple :=
  (sortDescByTs (db.changesets.filter (fun e =>
      decide (timestamp ≤ e.timestamp)
      && match graph with
         | some g => decide (e.graph = g)
         | none => true))).foldl
    (fun acc e => if e.is_insertion then insert e.triple acc else acc.erase e.triple)
    (match graph with
     | some g => graphTriples db.store g
     | none => allTriples db.store)

/-- The amended undo/redo inverse law: after committing `cs` at timestamp
`ts` against `db`, `undo()` succeeds, restores the dataset's triple set
to that of `db`, and moves exactly the changeset's rows from the active
log to the redo log; a subsequent `redo()` succeeds, restores the
post-commit triple set, and moves the rows back. -/
def UndoRedoRestores (db : DBState) (cs : Changeset) (ts : Nat) : Prop :=
  (undo (commitState db cs ts)).2 = none ∧
  allTriples (undo (commitState db cs ts)).1.store = allTriples db.store ∧
  (undo (commitState db cs ts)).1.changesets = db.changesets ∧
  (undo (commitState db cs ts)).1.redos = entriesOf cs ts ∧
  (redo (undo (commitState db cs ts)).1).2 = none ∧
  allTriples (redo (undo (commitState db cs ts)).1).1.store
    = allTriples (commitState db cs ts).store ∧
  (redo (undo (commitState db cs ts)).1).1.changesets = (commitState db cs ts).changesets ∧
  (redo (undo (commitState db cs ts)).1).1.redos = []

/-!  Concrete states: the worked scenario of spec section 8 and the inputs
of the counterexamples and witnesses. -/

/-- A database with no triples and empty logs. -/
def emptyDB : DBState := ⟨∅, [], []⟩

def tVav1Type : Triple := ("ex:vav1", "rdf:type", "ex:VAV")
def tVav1Feeds : Triple := ("ex:vav1", "ex:feeds", "ex:zone1")
def tZone1Type : Triple := ("ex:zone1", "rdf:type", "ex:Zone")
def tZone1Part : Triple := ("ex:zone1", "ex:hasPart", "ex:room1")
def tVav2Type : Triple := ("ex:vav2", "rdf:type", "ex:VAV")
def tVav2Feeds : Triple := ("ex:vav2", "ex:feeds", "ex:zone1")
def tZone2Type : Triple := ("ex:zone2", "rdf:type", "ex:Zone")

/-- Scenario changeset at t=1: the four adds. -/
def scenarioCs1 : Changeset :=
  ⟨"g", "cs1", [tVav1Type, tVav1Feeds, tZone1Type, tZone1Part], []⟩

/-- Scenario changeset at t=2: three adds and one removal. -/
def scenarioCs2 : Changeset :=
  ⟨"g", "cs2", [tVav2Type, tVav2Feeds, tZone2Type], [tZone1Part]⟩

/-- Scenario changeset at t=3: repeats the t=2 adds and removal verbatim. -/
def scenarioCs3 : Changeset :=
  ⟨"g", "cs3", [tVav2Type, tVav2Feeds, tZone2Type], [tZone1Part]⟩

def scenarioDB1 : DBState := commitState emptyDB scenarioCs1 1
def scenarioDB2 : DBState := commitState scenarioDB1 scenarioCs2 2
def scenarioDB3 : DBState := commitState scenarioDB2 scenarioCs3 3

/-- The 4-triple state that existed after the t=1 commit. -/
def t1State : Finset Triple := {tVav1Type, tVav1Feeds, tZone1Type, tZone1Part}

/-- A precommit hook that always raises. -/
def failingHook : Hook := fun _ => some "hook failed"

/-- Changeset staging one addition, used with `failingHook`. -/
def c1cs : Changeset := ⟨"g", "cs-c1", [("ex:s", "ex:p", "ex:o")], []⟩

/-- A database whose active log holds one entry at timestamp 5. -/
def c3db : DBState := ⟨∅, [⟨"cs-b", 5, "g", true, ("ex:s", "ex:p", "ex:o")⟩], []⟩

/-- A live store already containing the one triple that `c4cs` stages as
an addition (a no-op add on the set-semantics store). -/
def c4db : DBState := ⟨{("g", ("ex:s", "ex:p", "ex:o"))}, [], []⟩

def c4cs : Changeset := ⟨"g", "cs-c4", [("ex:s", "ex:p", "ex:o")], []⟩

/-- An effective changeset against `w4db`: the addition is absent from
the dataset and the deletion is present (only) in graph g. -/
def w4db : DBState := ⟨{("g", ("ex:d", "ex:dp", "ex:do"))}, [], []⟩

def w4cs : Changeset :=
  ⟨"g", "cs-w4", [("ex:a", "ex:ap", "ex:ao")], [("ex:d", "ex:dp", "ex:do")]⟩

/-- The redo row of the earlier-committed (older-timestamp) changeset. -/
def redoEntryOld : LogEntry := ⟨"cs-old", 1, "g", true, ("ex:s1", "ex:p1", "ex:o1")⟩

/-- The redo row of the most recently undone (newer-timestamp) changeset. -/
def redoEntryNew : LogEntry := ⟨"cs-new", 2, "g", true, ("ex:s2", "ex:p2", "ex:o2")⟩

/-- A redo log holding two undone changesets with distinct timestamps. -/
def cexRedoDB : DBState := ⟨∅, [], [redoEntryOld, redoEntryNew]⟩

/-- A database with one log entry strictly after timestamp 1 on graph
"abc", whose live store is empty. -/
def c8db : DBState := ⟨∅, [⟨"cs-ms", 2, "abc", true, ("ex:s", "ex:p", "ex:o")⟩], []⟩

/-- Changeset staging the same triple as both an addition and a removal. -/
def w10cs : Changeset :=
  ⟨"g", "cs-w10", [("ex:t", "ex:tp", "ex:to")], [("ex:t", "ex:tp", "ex:to")]⟩

/-!  Helper lemmas. -/

/-- A triple is in the dataset view iff some context holds it. -/
theorem mem_allTriples (s : Store) (x : Triple) :
    x ∈ allTriples s ↔ ∃ g, (g, x) ∈ s := by
  simp [allTriples, Prod.exists]

theorem mem_foldl_ctxAdd (g : String) (l : List Triple) (s : Store) (p : String × Triple) :
    p ∈ l.foldl (fun s t => contextAdd s g t) s ↔ p ∈ s ∨ (p.1 = g ∧ p.2 ∈ l) := by
  obtain ⟨p1, p2⟩ := p
  induction l generalizing s with
  | nil => simp
  | cons a l ih =>
    rw [List.foldl_cons, ih]
    simp only [contextAdd, Finset.mem_insert, List.mem_cons, Prod.mk.injEq]
    tauto

theorem mem_foldl_ctxRemove (g : String) (l : List Triple) (s : Store) (p : String × Triple) :
    p ∈ l.foldl (fun s t => contextRemove s g t) s ↔ p ∈ s ∧ ¬(p.1 = g ∧ p.2 ∈ l) := by
  obtain ⟨p1, p2⟩ := p
  induction l generalizing s with
  | nil => simp
  | cons a l ih =>
    rw [List.foldl_cons, ih]
    simp only [contextRemove, Finset.mem_erase, List.mem_cons, Prod.mk.injEq, ne_eq]
    tauto

theorem mem_foldl_cgAdd (l : List Triple) (s : Store) (p : String × Triple) :
    p ∈ l.foldl cgAdd s ↔ p ∈ s ∨ (p.1 = defaultContext ∧ p.2 ∈ l) := by
  obtain ⟨p1, p2⟩ := p
  induction l generalizing s with
  | nil => simp
  | cons a l ih =>
    rw [List.foldl_cons, ih]
    simp only [cgAdd, Finset.mem_insert, List.mem_cons, Prod.mk.injEq]
    tauto

theorem mem_foldl_cgRemove (l : List Triple) (s : Store) (p : String × Triple) :
    p ∈ l.foldl cgRemove s ↔ p ∈ s ∧ p.2 ∉ l := by
  obtain ⟨p1, p2⟩ := p
  induction l generalizing s with
  | nil => simp
  | cons a l ih =>
    rw [List.foldl_cons, ih]
    simp only [cgRemove, Finset.mem_filter, List.mem_cons, ne_eq]
    tauto

theorem replayOnStore_append (l1 l2 : List LogEntry) (s : Store) :
    replayOnStore (l1 ++ l2) s = replayOnStore l2 (replayOnStore l1 s) :=
  List.foldl_append ..

/-- Replaying the Insertion rows of a list of deleted triples adds each
triple to the default context. -/
theorem replayOnStore_insertion_rows (uid : String) (ts : Nat) (g : String)
    (l : List Triple) (s : Store) :
    replayOnStore (l.map (insertionEntry uid ts g)) s = l.foldl cgAdd s := by
  induction l generalizing s with
  | nil => rfl
  | cons a l ih =>
    simpa [replayOnStore, applyBackward, insertionEntry] using ih (cgAdd s a)

/-- Replaying the Deletion rows of a list of added triples removes each
triple from every context. -/
theorem replayOnStore_deletion_rows (uid : String) (ts : Nat) (g : String)
    (l : List Triple) (s : Store) :
    replayOnStore (l.map (deletionEntry uid ts g)) s = l.foldl cgRemove s := by
  induction l generalizing s with
  | nil => rfl
  | cons a l ih =>
    simpa [replayOnStore, applyBackward, deletionEntry] using ih (cgRemove s a)

/-- The forward loop over Insertion rows removes each triple from every
context. -/
theorem forward_insertion_rows (uid : String) (ts : Nat) (g : String)
    (l : List Triple) (s : Store) :
    (l.map (insertionEntry uid ts g)).foldl applyForward s = l.foldl cgRemove s := by
  induction l generalizing s with
  | nil => rfl
  | cons a l ih =>
    simpa [applyForward, insertionEntry] using ih (cgRemove s a)

/-- The forward loop over Deletion rows adds each triple to the default
context. -/
theorem forward_deletion_rows (uid : String) (ts : Nat) (g : String)
    (l : List Triple) (s : Store) :
    (l.map (deletionEntry uid ts g)).foldl applyForward s = l.foldl cgAdd s := by
  induction l generalizing s with
  | nil => rfl
  | cons a l ih =>
    simpa [applyForward, deletionEntry] using ih (cgAdd s a)

/-- Sorting is the identity on a list whose rows all share one
timestamp (stability of the descending insertion sort). -/
theorem sortDescByTs_of_const (ts : Nat) :
    ∀ l : List LogEntry, (∀ e ∈ l, e.timestamp = ts) → sortDescByTs l = l := by
  intro l
  induction l with
  | nil => intro _; rfl
  | cons x xs ih =>
    intro h
    have hx : x.timestamp = ts := h x (by simp)
    have hxs : ∀ e ∈ xs, e.timestamp = ts := fun e he => h e (by simp [he])
    rw [sortDescByTs, ih hxs]
    cases xs with
    | nil => rfl
    | cons y ys =>
      have hy : y.timestamp = ts := hxs y (by simp)
      simp [insertDescByTs, hx, hy]

/-- `latest_version` of a nonempty table is a row of the table of maximal
timestamp. -/
theorem latest_version_spec :
    ∀ l : List LogEntry, l ≠ [] →
      ∃ e, latest_version l = some e ∧ e ∈ l ∧ ∀ x ∈ l, x.timestamp ≤ e.timestamp := by
  intro l
  induction l with
  | nil => intro h; exact absurd rfl h
  | cons a l ih =>
    intro _
    by_cases hl : l = []
    · subst hl
      exact ⟨a, rfl, by simp, by simp⟩
    · obtain ⟨m, hm, hmem, hmax⟩ := ih hl
      by_cases hc : m.timestamp ≤ a.timestamp
      · refine ⟨a, ?_, by simp, ?_⟩
        · simp only [latest_version]
          rw [hm]
          simp [hc]
        · intro x hx
          rcases List.mem_cons.mp hx with rfl | hx
          · exact le_refl _
          · exact le_trans (hmax x hx) hc
      · refine ⟨m, ?_, by simp [hmem], ?_⟩
        · simp only [latest_version]
          rw [hm]
          simp [hc]
        · intro x hx
          rcases List.mem_cons.mp hx with rfl | hx
          · omega
          · exact hmax x hx

/-- `first_redo` of a nonempty table is a row of the table of minimal
timestamp. -/
theorem first_redo_spec :
    ∀ l : List LogEntry, l ≠ [] →
      ∃ e, first_redo l = some e ∧ e ∈ l ∧ ∀ x ∈ l, e.timestamp ≤ x.timestamp := by
  intro l
  induction l with
  | nil => intro h; exact absurd rfl h
  | cons a l ih =>
    intro _
    by_cases hl : l = []
    · subst hl
      exact ⟨a, rfl, by simp, by simp⟩
    · obtain ⟨m, hm, hmem, hmin⟩ := ih hl
      by_cases hc : a.timestamp ≤ m.timestamp
      · refine ⟨a, ?_, by simp, ?_⟩
        · simp only [first_redo]
          rw [hm]
          simp [hc]
        · intro x hx
          rcases List.mem_cons.mp hx with rfl | hx
          · exact le_refl _
          · exact le_trans hc (hmin x hx)
      · refine ⟨m, ?_, by simp [hmem], ?_⟩
        · simp only [first_redo]
          rw [hm]
          simp [hc]
        · intro x hx
          rcases List.mem_cons.mp hx with rfl | hx
          · omega
          · exact hmin x hx

theorem undo_eq_of_latest (db : DBState) (le : LogEntry)
    (h : latest_version db.changesets = some le) :
    undo db = (undoApply db le, none) := by
  unfold undo
  rw [h]

theorem redo_eq_of_first (db : DBState) (le : LogEntry)
    (h : first_redo db.redos = some le) :
    redo db = (redoApply db le, none) := by
  unfold redo
  rw [h]

/-- Every row a finalized changeset appends carries the changeset's uuid
and effective timestamp. -/
theorem entriesOf_id_ts (cs : Changeset) (ts : Nat) :
    ∀ e ∈ entriesOf cs ts, e.id = cs.uid ∧ e.timestamp = ts := by
  intro e he
  rcases List.mem_append.mp he with h | h <;>
    · obtain ⟨t, _, rfl⟩ := List.mem_map.mp h
      exact ⟨rfl, rfl⟩

/-!  Claim theorems. -/

/-- C1 (code bug): when a precommit hook raises during finalize, the unit
is NOT rolled back.  At this input — an empty database, a changeset
staging one addition, and a single always-raising precommit hook — the
hook error propagates to the caller, yet the changeset's Deletion row
stays persisted in the active log and the staged triple stays in the
live store, contradicting the claimed full rollback. -/
theorem c1_precommit_failure_not_rolled_back :
    (new_changeset_commit [failingHook] emptyDB c1cs 1).2 = some "hook failed" ∧
    (new_changeset_commit [failingHook] emptyDB c1cs 1).1.changesets
      = [deletionEntry "cs-c1" 1 "g" ("ex:s", "ex:p", "ex:o")] ∧
    (new_changeset_commit [failingHook] emptyDB c1cs 1).1.store ≠ emptyDB.store := by
  decide

/-- C2: for every finalized changeset, each staged removal produces
exactly one active-log row of kind Insertion (`is_insertion` true) and
each staged addition exactly one row of kind Deletion (`is_insertion`
false), appended in that order after the previous log contents, every
row carrying the changeset's uuid, the staged triple and the effective
timestamp. -/
theorem c2_inverse_logging (hooks : List Hook) (db : DBState) (cs : Changeset) (ts : Nat) :
    (new_changeset_commit hooks db cs ts).1.changesets
      = db.changesets
        ++ cs.deletions.map (insertionEntry cs.uid ts cs.name)
        ++ cs.additions.map (deletionEntry cs.uid ts cs.name) := by
  simp [new_changeset_commit, finalizeWrites, entriesOf]

/-- C3 counterexample: with a single active row at timestamp 5,
`graph_at` at timestamp 5 replays that row (the query uses `>=`), so it
differs from the claim's strictly-after replay, which replays nothing. -/
theorem c3_counterexample :
    graph_at c3db 5 (some "g") ≠ graphAtStrictlyAfter c3db 5 (some "g") := by
  decide

/-- C3 (amended): `graph_at(t, g)` starts from a copy of the current live
content and replays exactly those active-log entries whose timestamp is
at or after `t` — entries with timestamp equal to `t` ARE replayed — in
descending timestamp order, adding the triple of each Insertion entry
and removing the triple of each Deletion entry. -/
theorem c3_replay_at_or_after (db : DBState) (t : Nat) (g : Option String) :
    graph_at db t g = graphAtAtOrAfter db t g := by
  have hf : db.changesets.filter (matchesWindow g t)
      = db.changesets.filter (fun e =>
          decide (t ≤ e.timestamp)
          && match g with
             | some gr => decide (e.graph = gr)
             | none => true) :=
    List.filter_congr (fun e _ => by cases g <;> simp [matchesWindow, Bool.and_comm])
  unfold graph_at graph_at_core graphAtAtOrAfter
  rw [hf]
  rfl

/-- C5 counterexample: after the t=2 commit the live graph does have 6
triples, but `graph_at(1, g)` does not return the 4-triple t=1 state:
the `>=` window also replays (undoes) the t=1 changeset itself. -/
theorem c5_counterexample :
    ¬ ((graphTriples scenarioDB2.store "g").card = 6 ∧
       graph_at scenarioDB2 1 (some "g") = t1State) := by
  decide

/-- C5 (amended): after the t=2 commit the live graph has 6 triples, and
`graph_at(1, g)` returns the empty set — the state from before the t=1
commit — because entries with timestamp equal to the requested one are
also replayed; the 4-triple t=1 state is instead returned by
`graph_at(2, g)`. -/
theorem c5_amended_scenario :
    (graphTriples scenarioDB2.store "g").card = 6 ∧
    graph_at scenarioDB2 1 (some "g") = (∅ : Finset Triple) ∧
    graph_at scenarioDB2 2 (some "g") = t1State := by
  decide

/-- C6: the t=3 changeset repeats the t=2 adds and removal verbatim; all
its operations are no-ops on the live set-semantics store, the live
graph is unchanged at 6 triples after the t=3 commit, and
`graph_at(2, g)` returns a triple set equal to `graph_at(3, g)`. -/
theorem c6_t3_noop_scenario :
    (graphTriples scenarioDB3.store "g").card = 6 ∧
    graphTriples scenarioDB3.store "g" = graphTriples scenarioDB2.store "g" ∧
    graph_at scenarioDB3 2 (some "g") = graph_at scenarioDB3 3 (some "g") := by
  decide

/-- C7 counterexample: with two undone changesets in the redo log at
timestamps 1 and 2, `redo()` moves back the rows of the *older* one
(timestamp 1) and leaves the maximum-timestamp one in the redo log,
contrary to the claimed descending-timestamp selection. -/
theorem c7_counterexample :
    (redo cexRedoDB).1.changesets = [redoEntryOld] ∧
    (redo cexRedoDB).1.redos = [redoEntryNew] ∧
    redoEntryOld.timestamp < redoEntryNew.timestamp := by
  decide

/-- C7 (amended): whenever the redo log is non-empty, `redo()` selects a
row of *minimum* timestamp (`ORDER BY timestamp ASC LIMIT 1` — FIFO, the
earliest-committed undone changeset) and moves exactly the redo rows
with that changeset's id back to the active log. -/
theorem c7_redo_selects_min_timestamp (db : DBState) (h : db.redos ≠ []) :
    ∃ e ∈ db.redos, (∀ x ∈ db.redos, e.timestamp ≤ x.timestamp) ∧
      (redo db).1.changesets
        = db.changesets ++ db.redos.filter (fun x => decide (x.id = e.id)) ∧
      (redo db).1.redos = db.redos.filter (fun x => !decide (x.id = e.id)) := by
  obtain ⟨e, he, hmem, hmin⟩ := first_redo_spec db.redos h
  refine ⟨e, hmem, hmin, ?_, ?_⟩
  · rw [redo_eq_of_first db e he]
    rfl
  · rw [redo_eq_of_first db e he]
    rfl

/-- Witness for C7 (amended) at the concrete two-row redo log. -/
theorem c7_redo_selects_min_timestamp_witness :
    ∃ e ∈ cexRedoDB.redos, (∀ x ∈ cexRedoDB.redos, e.timestamp ≤ x.timestamp) ∧
      (redo cexRedoDB).1.changesets
        = cexRedoDB.changesets ++ cexRedoDB.redos.filter (fun x => decide (x.id = e.id)) ∧
      (redo cexRedoDB).1.redos = cexRedoDB.redos.filter (fun x => !decide (x.id = e.id)) :=
  c7_redo_selects_min_timestamp cexRedoDB (by decide)

/-- C8 counterexample: `DB.graph_at` of `main_with_sqlalchemy.py` replays
log rows directly onto the *live* graph returned by `latest`; at this
input the live store content differs after the call. -/
theorem c8_counterexample :
    (graph_at_ms c8db "abc" 1).2.store ≠ c8db.store := by
  decide

/-- C8 (amended): `vrdf.py`'s `DB.graph_at` is read-only — it builds a
private copy of the live content and replays onto the copy, so after any
call the active log, the redo log and the live store equal their values
before the call. -/
theorem c8_vrdf_graph_at_pure (db : DBState) (t : Nat) (g : Option String) :
    (graph_at_call db t g).2.changesets = db.changesets ∧
    (graph_at_call db t g).2.redos = db.redos ∧
    (graph_at_call db t g).2.store = db.store :=
  ⟨rfl, rfl, rfl⟩

/-- C9: with an empty active log, `undo()` raises "No changesets to undo"
before touching anything, leaving the whole state unchanged; with an
empty redo log, `redo()` likewise raises "No changesets to redo" and
has no effect. -/
theorem c9_empty_log_errors (db : DBState) :
    (db.changesets = [] → undo db = (db, some "No changesets to undo")) ∧
    (db.redos = [] → redo db = (db, some "No changesets to redo")) := by
  constructor
  · intro h
    simp [undo, h, latest_version]
  · intro h
    simp [redo, h, first_redo]

/-- Witness for C9 at the empty database. -/
theorem c9_empty_log_errors_witness :
    undo emptyDB = (emptyDB, some "No changesets to undo") ∧
    redo emptyDB = (emptyDB, some "No changesets to redo") :=
  ⟨(c9_empty_log_errors emptyDB).1 rfl, (c9_empty_log_errors emptyDB).2 rfl⟩

/-- C10: when the same triple is staged both as an addition and as a
removal in one changeset, finalize applies all staged removals to the
store before all staged additions, so the triple is present in the live
graph after commit, and both one Insertion row and one Deletion row for
it are persisted in the active log under the changeset's id. -/
theorem c10_add_remove_same_triple (hooks : List Hook) (db : DBState) (cs : Changeset)
    (ts : Nat) (t : Triple) (ha : t ∈ cs.additions) (hd : t ∈ cs.deletions) :
    (cs.name, t) ∈ (new_changeset_commit hooks db cs ts).1.store ∧
    insertionEntry cs.uid ts cs.name t ∈ (new_changeset_commit hooks db cs ts).1.changesets ∧
    deletionEntry cs.uid ts cs.name t ∈ (new_changeset_commit hooks db cs ts).1.changesets := by
  refine ⟨?_, ?_, ?_⟩
  · exact (mem_foldl_ctxAdd cs.name cs.additions
      (cs.deletions.foldl (fun s t => contextRemove s cs.name t) db.store)
      (cs.name, t)).mpr (Or.inr ⟨rfl, ha⟩)
  · show insertionEntry cs.uid ts cs.name t ∈ db.changesets ++ entriesOf cs ts
    exact List.mem_append_right _
      (List.mem_append_left _ (List.mem_map_of_mem _ hd))
  · show deletionEntry cs.uid ts cs.name t ∈ db.changesets ++ entriesOf cs ts
    exact List.mem_append_right _
      (List.mem_append_right _ (List.mem_map_of_mem _ ha))

/-- Witness for C10 at a changeset staging one triple as both an addition
and a removal. -/
theorem c10_add_remove_same_triple_witness :
    ("g", (("ex:t", "ex:tp", "ex:to") : Triple))
      ∈ (new_changeset_commit [] emptyDB w10cs 3).1.store ∧
    insertionEntry "cs-w10" 3 "g" ("ex:t", "ex:tp", "ex:to")
      ∈ (new_changeset_commit [] emptyDB w10cs 3).1.changesets ∧
    deletionEntry "cs-w10" 3 "g" ("ex:t", "ex:tp", "ex:to")
      ∈ (new_changeset_commit [] emptyDB w10cs 3).1.changesets :=
  c10_add_remove_same_triple [] emptyDB w10cs 3 ("ex:t", "ex:tp", "ex:to")
    (by decide) (by decide)

/-- C4 counterexample: a changeset whose staged addition is already
present in the live graph (a no-op add under set semantics) breaks the
inverse law as claimed "for any changeset": its logged Deletion row,
replayed by `undo()`, removes a triple that the pre-commit state S also
had, so the post-undo triple set differs from S. -/
theorem c4_counterexample_noop_changeset :
    allTriples ((undo (commitState c4db c4cs 1)).1.store) ≠ allTriples c4db.store := by
  decide

/-- C4 (amended): the undo/redo inverse law holds for an *effective*
changeset — every staged addition absent from the dataset before commit,
every staged removal present (and only present) in the target graph,
the changeset's timestamp strictly above all active rows, its uuid
fresh, the redo log empty, and the changeset nonempty.  Then `undo()`
restores the dataset's triple set to that of S and moves exactly the
changeset's rows to the redo log, and a subsequent `redo()` restores the
post-commit triple set and moves the rows back. -/
theorem c4_undo_redo_inverse (db : DBState) (cs : Changeset) (ts : Nat)
    (hredo : db.redos = [])
    (hts : ∀ e ∈ db.changesets, e.timestamp < ts)
    (hid : ∀ e ∈ db.changesets, e.id ≠ cs.uid)
    (hadds : ∀ t ∈ cs.additions, t ∉ allTriples db.store)
    (hdels : ∀ t ∈ cs.deletions, (cs.name, t) ∈ db.store)
    (hdelsOnly : ∀ t ∈ cs.deletions, ∀ p ∈ db.store, p.2 = t → p.1 = cs.name)
    (hne : entriesOf cs ts ≠ []) :
    UndoRedoRestores db cs ts := by
  have hEdef : entriesOf cs ts
      = cs.deletions.map (insertionEntry cs.uid ts cs.name)
        ++ cs.additions.map (deletionEntry cs.uid ts cs.name) := rfl
  have hfilterTsGen : (db.changesets ++ entriesOf cs ts).filter
      (fun e => decide (ts ≤ e.timestamp)) = entriesOf cs ts := by
    rw [List.filter_append]
    have h1 : db.changesets.filter (fun e => decide (ts ≤ e.timestamp)) = [] := by
      rw [List.filter_eq_nil_iff]
      intro e hee
      have h3 := hts e hee
      simp only [decide_eq_true_eq]
      omega
    have h2 : (entriesOf cs ts).filter (fun e => decide (ts ≤ e.timestamp))
        = entriesOf cs ts := by
      rw [List.filter_eq_self]
      intro e hee
      rw [(entriesOf_id_ts cs ts e hee).2]
      simp
    rw [h1, h2, List.nil_append]
  have hfilterIdNeGen : (db.changesets ++ entriesOf cs ts).filter
      (fun e => !decide (e.id = cs.uid)) = db.changesets := by
    rw [List.filter_append]
    have h1 : db.changesets.filter (fun e => !decide (e.id = cs.uid)) = db.changesets := by
      rw [List.filter_eq_self]
      intro e hee
      simp [hid e hee]
    have h2 : (entriesOf cs ts).filter (fun e => !decide (e.id = cs.uid)) = [] := by
      rw [List.filter_eq_nil_iff]
      intro e hee
      rw [(entriesOf_id_ts cs ts e hee).1]
      simp
    rw [h1, h2, List.append_nil]
  have hEfilterIdGen : (entriesOf cs ts).filter (fun e => decide (e.id = cs.uid))
      = entriesOf cs ts := by
    rw [List.filter_eq_self]
    intro e hee
    rw [(entriesOf_id_ts cs ts e hee).1]
    simp
  have hfilterIdEqGen : (db.changesets ++ entriesOf cs ts).filter
      (fun e => decide (e.id = cs.uid)) = entriesOf cs ts := by
    rw [List.filter_append]
    have h1 : db.changesets.filter (fun e => decide (e.id = cs.uid)) = [] := by
      rw [List.filter_eq_nil_iff]
      intro e hee
      simp [hid e hee]
    rw [h1, hEfilterIdGen, List.nil_append]
  have hsortE : sortDescByTs (entriesOf cs ts) = entriesOf cs ts :=
    sortDescByTs_of_const ts _ (fun e he => (entriesOf_id_ts cs ts e he).2)
  have hne2 : db.changesets ++ entriesOf cs ts ≠ [] := by
    intro hcontra
    exact hne (List.append_eq_nil.mp hcontra).2
  obtain ⟨le, hle, hlemem, hlemax⟩ :=
    latest_version_spec (db.changesets ++ entriesOf cs ts) hne2
  obtain ⟨e0, he0⟩ := List.exists_mem_of_ne_nil (entriesOf cs ts) hne
  have hlets0 : ts ≤ le.timestamp := by
    have h4 := hlemax e0 (List.mem_append_right _ he0)
    have h5 := (entriesOf_id_ts cs ts e0 he0).2
    omega
  have hleE : le ∈ entriesOf cs ts := by
    rcases List.mem_append.mp hlemem with h | h
    · exfalso
      have h6 := hts le h
      omega
    · exact h
  have hlets : le.timestamp = ts := (entriesOf_id_ts cs ts le hleE).2
  have hleid : le.id = cs.uid := (entriesOf_id_ts cs ts le hleE).1
  have hundo : undo (commitState db cs ts)
      = (undoApply (commitState db cs ts) le, none) :=
    undo_eq_of_latest _ le hle
  have hduc : (undoApply (commitState db cs ts) le).changesets = db.changesets := by
    show (db.changesets ++ entriesOf cs ts).filter (fun e => !decide (e.id = le.id))
      = db.changesets
    rw [hleid]
    exact hfilterIdNeGen
  have hdur : (undoApply (commitState db cs ts) le).redos = entriesOf cs ts := by
    show db.redos ++ (db.changesets ++ entriesOf cs ts).filter
        (fun e => decide (e.id = le.id)) = entriesOf cs ts
    rw [hredo, hleid, hfilterIdEqGen, List.nil_append]
  have hS2def : (commitState db cs ts).store
      = cs.additions.foldl (fun s t => contextAdd s cs.name t)
          (cs.deletions.foldl (fun s t => contextRemove s cs.name t) db.store) := rfl
  have hdustore : (undoApply (commitState db cs ts) le).store
      = cs.additions.foldl cgRemove
          (cs.deletions.foldl cgAdd (commitState db cs ts).store) := by
    show replayOnStore
        (sortDescByTs ((db.changesets ++ entriesOf cs ts).filter
          (fun e => decide (le.timestamp ≤ e.timestamp))))
        (commitState db cs ts).store = _
    rw [hlets, hfilterTsGen, hsortE, hEdef, replayOnStore_append,
      replayOnStore_insertion_rows, replayOnStore_deletion_rows]
  have hmemS2 : ∀ p : String × Triple, p ∈ (commitState db cs ts).store ↔
      (p ∈ db.store ∧ ¬(p.1 = cs.name ∧ p.2 ∈ cs.deletions))
        ∨ (p.1 = cs.name ∧ p.2 ∈ cs.additions) := by
    intro p
    rw [hS2def, mem_foldl_ctxAdd, mem_foldl_ctxRemove]
  have hmemdu : ∀ p : String × Triple,
      p ∈ (undoApply (commitState db cs ts) le).store ↔
        (((p ∈ db.store ∧ ¬(p.1 = cs.name ∧ p.2 ∈ cs.deletions))
            ∨ (p.1 = cs.name ∧ p.2 ∈ cs.additions))
          ∨ (p.1 = defaultContext ∧ p.2 ∈ cs.deletions)) ∧ p.2 ∉ cs.additions := by
    intro p
    rw [hdustore, mem_foldl_cgRemove, mem_foldl_cgAdd, hS2def,
      mem_foldl_ctxAdd, mem_foldl_ctxRemove]
  have hdustoreAll : allTriples (undoApply (commitState db cs ts) le).store
      = allTriples db.store := by
    apply Finset.ext
    intro x
    rw [mem_allTriples, mem_allTriples]
    constructor
    · rintro ⟨h, hin⟩
      rw [hmemdu] at hin
      obtain ⟨hcase, hnotA⟩ := hin
      rcases hcase with (⟨hS, _⟩ | ⟨_, hA⟩) | ⟨_, hD⟩
      · exact ⟨h, hS⟩
      · exact absurd hA hnotA
      · exact ⟨cs.name, hdels x hD⟩
    · rintro ⟨h, hS⟩
      have hxA : x ∉ cs.additions := fun hA =>
        hadds x hA ((mem_allTriples db.store x).mpr ⟨h, hS⟩)
      by_cases hxD : x ∈ cs.deletions
      · exact ⟨defaultContext,
          (hmemdu (defaultContext, x)).mpr ⟨Or.inr ⟨rfl, hxD⟩, hxA⟩⟩
      · exact ⟨h,
          (hmemdu (h, x)).mpr ⟨Or.inl (Or.inl ⟨hS, fun hc => hxD hc.2⟩), hxA⟩⟩
  obtain ⟨le2, hle2, hle2mem, _⟩ := first_redo_spec (entriesOf cs ts) hne
  have hle2id : le2.id = cs.uid := (entriesOf_id_ts cs ts le2 hle2mem).1
  have hle2ts : le2.timestamp = ts := (entriesOf_id_ts cs ts le2 hle2mem).2
  have hredoEq : redo (undoApply (commitState db cs ts) le)
      = (redoApply (undoApply (commitState db cs ts) le) le2, none) := by
    apply redo_eq_of_first
    rw [hdur]
    exact hle2
  have hEfilterIdNe : (entriesOf cs ts).filter (fun e => !decide (e.id = cs.uid)) = [] := by
    rw [List.filter_eq_nil_iff]
    intro e hee
    rw [(entriesOf_id_ts cs ts e hee).1]
    simp
  have hrc : (redoApply (undoApply (commitState db cs ts) le) le2).changesets
      = db.changesets ++ entriesOf cs ts := by
    show (undoApply (commitState db cs ts) le).changesets
        ++ (undoApply (commitState db cs ts) le).redos.filter
          (fun e => decide (e.id = le2.id)) = _
    rw [hduc, hdur, hle2id, hEfilterIdGen]
  have hrr : (redoApply (undoApply (commitState db cs ts) le) le2).redos = [] := by
    show (undoApply (commitState db cs ts) le).redos.filter
        (fun e => !decide (e.id = le2.id)) = []
    rw [hdur, hle2id, hEfilterIdNe]
  have hrstore : (redoApply (undoApply (commitState db cs ts) le) le2).store
      = cs.additions.foldl cgAdd
          (cs.deletions.foldl cgRemove
            (cs.additions.foldl cgRemove
              (cs.deletions.foldl cgAdd
                (undoApply (commitState db cs ts) le).store))) := by
    show (((undoApply (commitState db cs ts) le).changesets
          ++ (undoApply (commitState db cs ts) le).redos.filter
            (fun e => decide (e.id = le2.id))).filter
          (fun e => decide (e.id = le2.id))).foldl applyForward
        (replayOnStore
          (sortDescByTs (((undoApply (commitState db cs ts) le).changesets
              ++ (undoApply (commitState db cs ts) le).redos.filter
                (fun e => decide (e.id = le2.id))).filter
            (fun e => decide (le2.timestamp ≤ e.timestamp))))
          (undoApply (commitState db cs ts) le).store) = _
    rw [hduc, hdur, hle2id, hle2ts, hEfilterIdGen, hfilterTsGen, hsortE,
      hfilterIdEqGen, hEdef, replayOnStore_append, replayOnStore_insertion_rows,
      replayOnStore_deletion_rows, List.foldl_append, forward_insertion_rows,
      forward_deletion_rows]
  have hmemdr : ∀ p : String × Triple,
      p ∈ (redoApply (undoApply (commitState db cs ts) le) le2).store ↔
        (((p ∈ (undoApply (commitState db cs ts) le).store
              ∨ (p.1 = defaultContext ∧ p.2 ∈ cs.deletions))
            ∧ p.2 ∉ cs.additions)
          ∧ p.2 ∉ cs.deletions)
        ∨ (p.1 = defaultContext ∧ p.2 ∈ cs.additions) := by
    intro p
    rw [hrstore, mem_foldl_cgAdd, mem_foldl_cgRemove, mem_foldl_cgRemove,
      mem_foldl_cgAdd]
  have hrstoreAll :
      allTriples (redoApply (undoApply (commitState db cs ts) le) le2).store
        = allTriples (commitState db cs ts).store := by
    apply Finset.ext
    intro x
    rw [mem_allTriples, mem_allTriples]
    constructor
    · rintro ⟨h, hin⟩
      rw [hmemdr] at hin
      rcases hin with ⟨⟨hdu | ⟨_, hD⟩, hnA⟩, hnD⟩ | ⟨_, hA⟩
      · rw [hmemdu] at hdu
        obtain ⟨hcase, _⟩ := hdu
        rcases hcase with (⟨hS, hnot⟩ | ⟨_, hA2⟩) | ⟨_, hD2⟩
        · exact ⟨h, (hmemS2 (h, x)).mpr (Or.inl ⟨hS, hnot⟩)⟩
        · exact absurd hA2 hnA
        · exact absurd hD2 hnD
      · exact absurd hD hnD
      · exact ⟨cs.name, (hmemS2 (cs.name, x)).mpr (Or.inr ⟨rfl, hA⟩)⟩
    · rintro ⟨h, hS2⟩
      rw [hmemS2] at hS2
      rcases hS2 with ⟨hS, hnot⟩ | ⟨_, hA⟩
      · have hxA : x ∉ cs.additions := fun hA =>
          hadds x hA ((mem_allTriples db.store x).mpr ⟨h, hS⟩)
        have hxD : x ∉ cs.deletions := fun hD =>
          hnot ⟨hdelsOnly x hD (h, x) hS rfl, hD⟩
        exact ⟨h, (hmemdr (h, x)).mpr (Or.inl ⟨⟨Or.inl
          ((hmemdu (h, x)).mpr ⟨Or.inl (Or.inl ⟨hS, fun hc => hxD hc.2⟩), hxA⟩),
            hxA⟩, hxD⟩)⟩
      · exact ⟨defaultContext, (hmemdr (defaultContext, x)).mpr (Or.inr ⟨rfl, hA⟩)⟩
  unfold UndoRedoRestores
  refine ⟨?_, ?_, ?_, ?_, ?_, ?_, ?_, ?_⟩
  · rw [hundo]
  · rw [hundo]
    exact hdustoreAll
  · rw [hundo]
    exact hduc
  · rw [hundo]
    exact hdur
  · rw [hundo]
    show (redo (undoApply (commitState db cs ts) le)).2 = none
    rw [hredoEq]
  · rw [hundo]
    show allTriples (redo (undoApply (commitState db cs ts) le)).1.store
      = allTriples (commitState db cs ts).store
    rw [hredoEq]
    exact hrstoreAll
  · rw [hundo]
    show (redo (undoApply (commitState db cs ts) le)).1.changesets
      = (commitState db cs ts).changesets
    rw [hredoEq]
    exact hrc
  · rw [hundo]
    show (redo (undoApply (commitState db cs ts) le)).1.redos = []
    rw [hredoEq]
    exact hrr

/-- Witness for C4 (amended) at an effective one-addition one-removal
changeset committed at timestamp 5 against a one-triple store. -/
theorem c4_undo_redo_inverse_witness : UndoRedoRestores w4db w4cs 5 :=
  c4_undo_redo_inverse w4db w4cs 5 (by decide) (by decide) (by decide) (by decide)
    (by decide) (by decide) (by decide)
